import Mathlib

/-!
Verification of the pedigree utilities (msprime/pedigrees.py).

The Python module is shallowly embedded below: numpy arrays become `List`s,
machine integers become `Int`/`ℕ`, float times become `Rat`, exceptions
become `Except`/`Option` results, and the two stochastic primitives
(`numpy.random.RandomState.choice` with and without replacement) are
parametrised by an oracle `pick : ℕ → ℕ`, reduced modulo the size of the
pool so that every draw returns an element of the pool, exactly the support
of the distribution the source draws from.
-/

/-- A row of the tskit individuals table as produced by `sim_pedigree`:
`flags`, and the two parent entries of the `parents` column. -/
structure IndRow where
  flags : ℕ
  father : Int
  mother : Int
deriving DecidableEq, Repr

instance : Inhabited IndRow := ⟨⟨0, 0, 0⟩⟩

/-- A row of the tskit nodes table as produced by `sim_pedigree`. -/
structure NodeRow where
  flags : ℕ
  time : ℕ
  population : ℕ
  individual : ℕ
deriving DecidableEq, Repr

instance : Inhabited NodeRow := ⟨⟨0, 0, 0, 0⟩⟩

/-- `flags_value = 0 if time > 0 else tskit.NODE_IS_SAMPLE` (NODE_IS_SAMPLE = 1). -/
def flagsValue (t : ℕ) : ℕ := if 0 < t then 0 else 1

/-- One draw of `rng.choice(population, ...)`: the oracle index is reduced
modulo the population size, so the draw is always an element of the
population (the support of the uniform choice in the source). -/
def drawFrom (population : List Int) (pick : ℕ → ℕ) (c : ℕ) : Int :=
  population.getD (pick c % population.length) (-1)

/-- The `N` individual rows appended for one generation:
`flags=np.zeros(N)`, `parents=rng.choice(population, (N, 2))`. -/
def genIndRows (population : List Int) (pick : ℕ → ℕ) (ctr : ℕ) (N : ℕ) : List IndRow :=
  (List.range N).map (fun i =>
    ⟨0, drawFrom population pick (ctr + 2 * i), drawFrom population pick (ctr + 2 * i + 1)⟩)

/-- The `2*N` node rows appended for one generation: uniform flags and time,
population `0`, and `node_individual[0::2] = node_individual[1::2] = progeny`,
i.e. row `q` is owned by individual `curLen + q / 2`. -/
def genNodeRows (curLen N t : ℕ) : List NodeRow :=
  (List.range (2 * N)).map (fun q => ⟨flagsValue t, t, 0, curLen + q / 2⟩)

/-- The generation loop `for time in reversed(range(end_time + 1))` of
`sim_pedigree`.  `curLen = len(tables.individuals)`;
`population = progeny` of the previous iteration (initially `[tskit.NULL]`).
The tables are append-only, so the result is the concatenation of the
per-generation blocks. -/
def simLoop (N : ℕ) (pick : ℕ → ℕ) :
    List ℕ → List Int → ℕ → ℕ → List IndRow × List NodeRow
  | [], _, _, _ => ([], [])
  | t :: rest, population, ctr, curLen =>
    let newInds := genIndRows population pick ctr N
    let newNodes := genNodeRows curLen N t
    let progeny := (List.range N).map (fun i => ((curLen + i : ℕ) : Int))
    let r := simLoop N pick rest progeny (ctr + 2 * N) (curLen + N)
    (newInds ++ r.1, newNodes ++ r.2)

/-- `sim_pedigree(population_size=N, end_time=E)`: the individual and node
rows appended to the table collection. -/
def sim_pedigree (N E : ℕ) (pick : ℕ → ℕ) : List IndRow × List NodeRow :=
  simLoop N pick ((List.range (E + 1)).reverse) [(-1 : Int)] 0 0

lemma genIndRows_length (population : List Int) (pick : ℕ → ℕ) (ctr N : ℕ) :
    (genIndRows population pick ctr N).length = N := by
  simp [genIndRows]

lemma genNodeRows_length (curLen N t : ℕ) :
    (genNodeRows curLen N t).length = 2 * N := by
  simp [genNodeRows]

lemma drawFrom_mem (population : List Int) (pick : ℕ → ℕ) (c : ℕ)
    (h : population ≠ []) : drawFrom population pick c ∈ population := by
  have hpos : 0 < population.length := List.length_pos.mpr h
  have hlt : pick c % population.length < population.length := Nat.mod_lt _ hpos
  rw [drawFrom, List.getD_eq_getElem _ _ hlt]
  exact List.getElem_mem hlt

lemma simLoop_fst_length (N : ℕ) (pick : ℕ → ℕ) :
    ∀ (ts : List ℕ) (pop : List Int) (ctr curLen : ℕ),
    (simLoop N pick ts pop ctr curLen).1.length = ts.length * N := by
  intro ts
  induction ts with
  | nil => intro pop ctr curLen; simp [simLoop]
  | cons t rest ih =>
    intro pop ctr curLen
    simp only [simLoop, List.length_append, genIndRows_length, ih, List.length_cons]
    ring

lemma simLoop_snd_length (N : ℕ) (pick : ℕ → ℕ) :
    ∀ (ts : List ℕ) (pop : List Int) (ctr curLen : ℕ),
    (simLoop N pick ts pop ctr curLen).2.length = ts.length * (2 * N) := by
  intro ts
  induction ts with
  | nil => intro pop ctr curLen; simp [simLoop]
  | cons t rest ih =>
    intro pop ctr curLen
    simp only [simLoop, List.length_append, genNodeRows_length, ih, List.length_cons]
    ring

lemma genNodeRows_getD (curLen N t q : ℕ) (hq : q < 2 * N) :
    (genNodeRows curLen N t).getD q default = ⟨flagsValue t, t, 0, curLen + q / 2⟩ := by
  have hq2 : q < (genNodeRows curLen N t).length := by
    rw [genNodeRows_length]; exact hq
  rw [List.getD_eq_getElem _ _ hq2]
  simp [genNodeRows]

lemma genIndRows_getD (population : List Int) (pick : ℕ → ℕ) (ctr N q : ℕ) (hq : q < N) :
    (genIndRows population pick ctr N).getD q default =
      ⟨0, drawFrom population pick (ctr + 2 * q), drawFrom population pick (ctr + 2 * q + 1)⟩ := by
  have hq2 : q < (genIndRows population pick ctr N).length := by
    rw [genIndRows_length]; exact hq
  rw [List.getD_eq_getElem _ _ hq2]
  simp [genIndRows]

lemma simLoop_node_getD (N : ℕ) (pick : ℕ → ℕ) :
    ∀ (ts : List ℕ) (pop : List Int) (ctr curLen : ℕ) (q : ℕ), q < ts.length * (2 * N) →
    (simLoop N pick ts pop ctr curLen).2.getD q default =
      ⟨flagsValue (ts.getD (q / (2 * N)) 0), ts.getD (q / (2 * N)) 0, 0,
        curLen + (q / (2 * N)) * N + (q % (2 * N)) / 2⟩ := by
  intro ts
  induction ts with
  | nil => intro _ _ _ q hq; simp at hq
  | cons t rest ih =>
    intro pop ctr curLen q hq
    rcases Nat.eq_zero_or_pos N with hN0 | hN0
    · subst hN0; simp at hq
    have h2N : 0 < 2 * N := by omega
    by_cases h : q < 2 * N
    · have hdiv : q / (2 * N) = 0 := Nat.div_eq_of_lt h
      have hmod : q % (2 * N) = q := Nat.mod_eq_of_lt h
      show ((genNodeRows curLen N t ++ _ : List NodeRow)).getD q default = _
      rw [List.getD_append _ _ _ q (by rw [genNodeRows_length]; exact h)]
      rw [genNodeRows_getD _ _ _ _ h, hdiv, hmod]
      simp
    · push_neg at h
      obtain ⟨r, rfl⟩ := Nat.exists_eq_add_of_le h
      have hdiv : (2 * N + r) / (2 * N) = r / (2 * N) + 1 := by
        rw [Nat.add_comm, Nat.add_div_right _ h2N]
      have hmod : (2 * N + r) % (2 * N) = r % (2 * N) := by
        rw [Nat.add_comm, Nat.add_mod_right]
      have hr : r < rest.length * (2 * N) := by
        have hx : (rest.length + 1) * (2 * N) = rest.length * (2 * N) + 2 * N := by ring
        rw [List.length_cons, hx] at hq
        omega
      show ((genNodeRows curLen N t ++ _ : List NodeRow)).getD (2 * N + r) default = _
      rw [List.getD_append_right _ _ _ _ (by rw [genNodeRows_length]; omega)]
      rw [genNodeRows_length, Nat.add_sub_cancel_left]
      rw [ih _ (ctr + 2 * N) (curLen + N) r hr]
      rw [hdiv, hmod]
      have : curLen + N + r / (2 * N) * N = curLen + (r / (2 * N) + 1) * N := by ring
      simp [List.getD_cons_succ, this]

lemma simLoop_ind_getD (N : ℕ) (pick : ℕ → ℕ) (hN : 0 < N) :
    ∀ (ts : List ℕ) (pop : List Int) (ctr curLen : ℕ), pop ≠ [] →
    ∀ q : ℕ, q < ts.length * N →
    ((simLoop N pick ts pop ctr curLen).1.getD q default).flags = 0 ∧
    (q < N → ((simLoop N pick ts pop ctr curLen).1.getD q default).father ∈ pop ∧
      ((simLoop N pick ts pop ctr curLen).1.getD q default).mother ∈ pop) ∧
    (N ≤ q → ∃ i j, i < N ∧ j < N ∧
      ((simLoop N pick ts pop ctr curLen).1.getD q default).father =
        ((curLen + (q / N - 1) * N + i : ℕ) : Int) ∧
      ((simLoop N pick ts pop ctr curLen).1.getD q default).mother =
        ((curLen + (q / N - 1) * N + j : ℕ) : Int)) := by
  intro ts
  induction ts with
  | nil => intro _ _ _ _ q hq; simp at hq
  | cons t rest ih =>
    intro pop ctr curLen hpop q hq
    by_cases h : q < N
    · have hrow : (simLoop N pick (t :: rest) pop ctr curLen).1.getD q default =
          ⟨0, drawFrom pop pick (ctr + 2 * q), drawFrom pop pick (ctr + 2 * q + 1)⟩ := by
        show ((genIndRows pop pick ctr N ++ _ : List IndRow)).getD q default = _
        rw [List.getD_append _ _ _ q (by rw [genIndRows_length]; exact h)]
        exact genIndRows_getD pop pick ctr N q h
      refine ⟨by rw [hrow], fun _ => ⟨?_, ?_⟩, fun hc => absurd hc (by omega)⟩
      · rw [hrow]; exact drawFrom_mem pop pick _ hpop
      · rw [hrow]; exact drawFrom_mem pop pick _ hpop
    · push_neg at h
      obtain ⟨r, rfl⟩ := Nat.exists_eq_add_of_le h
      have hr : r < rest.length * N := by
        have hx : (rest.length + 1) * N = rest.length * N + N := by ring
        rw [List.length_cons, hx] at hq
        omega
      have hpop2 : ((List.range N).map (fun i => ((curLen + i : ℕ) : Int))) ≠ [] := by
        intro hcon
        have hlcon := congrArg List.length hcon
        simp at hlcon
        omega
      have hrow : (simLoop N pick (t :: rest) pop ctr curLen).1.getD (N + r) default =
          (simLoop N pick rest ((List.range N).map (fun i => ((curLen + i : ℕ) : Int)))
            (ctr + 2 * N) (curLen + N)).1.getD r default := by
        show ((genIndRows pop pick ctr N ++ _ : List IndRow)).getD (N + r) default = _
        rw [List.getD_append_right _ _ _ _ (by rw [genIndRows_length]; omega)]
        rw [genIndRows_length, Nat.add_sub_cancel_left]
      have hdiv : (N + r) / N = r / N + 1 := by
        rw [Nat.add_comm, Nat.add_div_right _ hN]
      obtain ⟨ihf, ihlo, ihhi⟩ := ih ((List.range N).map (fun i => ((curLen + i : ℕ) : Int)))
        (ctr + 2 * N) (curLen + N) hpop2 r hr
      refine ⟨by rw [hrow]; exact ihf, fun hc => absurd hc (by omega), fun _ => ?_⟩
      by_cases h2 : r < N
      · obtain ⟨hfa, hmo⟩ := ihlo h2
        rw [List.mem_map] at hfa hmo
        obtain ⟨i, hi, hfa⟩ := hfa
        obtain ⟨j, hj, hmo⟩ := hmo
        rw [List.mem_range] at hi hj
        have hdr : r / N = 0 := Nat.div_eq_of_lt h2
        refine ⟨i, j, hi, hj, ?_, ?_⟩
        · rw [hrow, ← hfa, hdiv, hdr]
          push_cast
          ring
        · rw [hrow, ← hmo, hdiv, hdr]
          push_cast
          ring
      · push_neg at h2
        obtain ⟨i, j, hi, hj, hfa, hmo⟩ := ihhi h2
        have hd1 : 1 ≤ r / N := (Nat.one_le_div_iff hN).mpr h2
        obtain ⟨e, he⟩ : ∃ e, r / N = e + 1 := ⟨r / N - 1, by omega⟩
        have harith : curLen + N + (r / N - 1) * N = curLen + ((N + r) / N - 1) * N := by
          rw [hdiv, he]
          simp
          ring
        refine ⟨i, j, hi, hj, ?_, ?_⟩
        · rw [hrow, hfa, harith]
        · rw [hrow, hmo, harith]

lemma range_reverse_getD (n j : ℕ) (hj : j < n) :
    ((List.range n).reverse).getD j 0 = n - 1 - j := by
  rw [List.getD_eq_getElem _ _ (by simpa using hj), List.getElem_reverse]
  simp

/-- C4: for every population size `N ≥ 1` and end time `E ≥ 0`, `sim_pedigree`
emits exactly `(E+1)*N` individual rows and `2*(E+1)*N` node rows; a node row
carries the sample flag exactly when its time is `0`, which happens exactly for
the rows of the final generation (the last `2*N` node rows); all other node
rows have flag `0`; and every founder-generation individual (the first `N`
rows) has both parent slots equal to the sentinel `-1`. -/
theorem sim_pedigree_counts_flags_founders (N E : ℕ) (pick : ℕ → ℕ) (hN : 1 ≤ N) :
    (sim_pedigree N E pick).1.length = (E + 1) * N ∧
    (sim_pedigree N E pick).2.length = 2 * ((E + 1) * N) ∧
    (∀ q, q < 2 * ((E + 1) * N) →
      (((sim_pedigree N E pick).2.getD q default).time = 0 ↔ 2 * E * N ≤ q) ∧
      (((sim_pedigree N E pick).2.getD q default).flags = 1 ↔
        ((sim_pedigree N E pick).2.getD q default).time = 0) ∧
      (((sim_pedigree N E pick).2.getD q default).flags = 0 ↔ q < 2 * E * N)) ∧
    (∀ r, r < N → ((sim_pedigree N E pick).1.getD r default).father = -1 ∧
      ((sim_pedigree N E pick).1.getD r default).mother = -1) := by
  have h2N : 0 < 2 * N := by omega
  have hlen : ((List.range (E + 1)).reverse).length = E + 1 := by simp
  refine ⟨?_, ?_, ?_, ?_⟩
  · rw [sim_pedigree, simLoop_fst_length, hlen]
  · rw [sim_pedigree, simLoop_snd_length, hlen]; ring
  · intro q hq
    have hq2 : q < ((List.range (E + 1)).reverse).length * (2 * N) := by
      rw [hlen]
      have : (E + 1) * (2 * N) = 2 * ((E + 1) * N) := by ring
      omega
    have hnode := simLoop_node_getD N pick ((List.range (E + 1)).reverse)
      [(-1 : Int)] 0 0 q hq2
    have hdivlt : q / (2 * N) < E + 1 := by
      rw [Nat.div_lt_iff_lt_mul h2N]
      have : (E + 1) * (2 * N) = 2 * ((E + 1) * N) := by ring
      omega
    have hts : ((List.range (E + 1)).reverse).getD (q / (2 * N)) 0 = E - q / (2 * N) := by
      rw [range_reverse_getD _ _ hdivlt]
      omega
    have htime0 : E - q / (2 * N) = 0 ↔ 2 * E * N ≤ q := by
      constructor
      · intro h0
        have hE : E ≤ q / (2 * N) := by omega
        have := (Nat.le_div_iff_mul_le h2N).mp hE
        calc 2 * E * N = E * (2 * N) := by ring
          _ ≤ q := this
      · intro hle
        have : E * (2 * N) ≤ q := by
          calc E * (2 * N) = 2 * E * N := by ring
            _ ≤ q := hle
        have := (Nat.le_div_iff_mul_le h2N).mpr this
        omega
    rw [sim_pedigree, hnode, hts]
    dsimp only
    simp only [flagsValue]
    by_cases hpos : 0 < E - q / (2 * N)
    · have hnle : ¬ (2 * E * N ≤ q) := fun hc => absurd (htime0.mpr hc) (by omega)
      rw [if_pos hpos]
      refine ⟨htime0, ?_, ?_⟩ <;> constructor <;> intro h <;> omega
    · have hle : 2 * E * N ≤ q := htime0.mp (by omega)
      rw [if_neg hpos]
      refine ⟨htime0, ?_, ?_⟩ <;> constructor <;> intro h <;> omega
  · intro r hr
    have hr2 : r < ((List.range (E + 1)).reverse).length * N := by
      rw [hlen]
      have : N ≤ (E + 1) * N := by
        calc N = 1 * N := by ring
          _ ≤ (E + 1) * N := Nat.mul_le_mul_right N (by omega)
      omega
    obtain ⟨-, hlo, -⟩ := simLoop_ind_getD N pick (by omega)
      ((List.range (E + 1)).reverse) [(-1 : Int)] 0 0 (by simp) r hr2
    obtain ⟨hfa, hmo⟩ := hlo hr
    rw [List.mem_singleton] at hfa hmo
    exact ⟨hfa, hmo⟩

/-- C10: every parent entry of a `sim_pedigree` individual row is either the
sentinel `-1` (as all founder-generation entries are), or the index of an
individual of the immediately preceding generation; in particular every
non-sentinel parent index is strictly smaller than the index of the child row
referencing it. -/
theorem sim_pedigree_parent_indices (N E : ℕ) (pick : ℕ → ℕ) (hN : 1 ≤ N) :
    ∀ r, r < (E + 1) * N →
      (r < N → ((sim_pedigree N E pick).1.getD r default).father = -1 ∧
        ((sim_pedigree N E pick).1.getD r default).mother = -1) ∧
      (∀ x, (x = ((sim_pedigree N E pick).1.getD r default).father ∨
             x = ((sim_pedigree N E pick).1.getD r default).mother) →
        x = -1 ∨ (N ≤ r ∧ ∃ i, i < N ∧
          x = (((r / N - 1) * N + i : ℕ) : Int) ∧ x.toNat < r)) := by
  intro r hr
  simp only [sim_pedigree]
  have hlen : ((List.range (E + 1)).reverse).length = E + 1 := by simp
  have hr2 : r < ((List.range (E + 1)).reverse).length * N := by rw [hlen]; omega
  obtain ⟨-, hlo, hhi⟩ := simLoop_ind_getD N pick (by omega)
    ((List.range (E + 1)).reverse) [(-1 : Int)] 0 0 (by simp) r hr2
  by_cases hcase : r < N
  · obtain ⟨hfa, hmo⟩ := hlo hcase
    rw [List.mem_singleton] at hfa hmo
    refine ⟨fun _ => ⟨hfa, hmo⟩, fun x hx => Or.inl ?_⟩
    rcases hx with hx | hx
    · rw [hx, hfa]
    · rw [hx, hmo]
  · push_neg at hcase
    obtain ⟨i, j, hi, hj, hfa, hmo⟩ := hhi hcase
    have hd1 : 1 ≤ r / N := (Nat.one_le_div_iff (by omega)).mpr hcase
    obtain ⟨e, he⟩ : ∃ e, r / N = e + 1 := ⟨r / N - 1, by omega⟩
    have hbound : ∀ m, m < N → (r / N - 1) * N + m < r := by
      intro m hm
      have h1 : (r / N - 1) * N + m < (r / N) * N := by
        rw [he]
        have hx : (e + 1) * N = e * N + N := by ring
        have hy : e + 1 - 1 = e := by omega
        rw [hy, hx]
        omega
      have h2 : (r / N) * N ≤ r := Nat.div_mul_le_self r N
      omega
    refine ⟨fun hc => absurd hc (by omega), fun x hx => Or.inr ⟨hcase, ?_⟩⟩
    rcases hx with hx | hx
    · refine ⟨i, hi, ?_, ?_⟩
      · rw [hx, hfa]; norm_num
      · rw [hx, hfa]
        simp [Int.toNat_natCast]
        exact hbound i hi
    · refine ⟨j, hj, ?_, ?_⟩
      · rw [hx, hmo]; norm_num
      · rw [hx, hmo]
        simp [Int.toNat_natCast]
        exact hbound j hj

theorem sim_pedigree_counts_flags_founders_witness :
    (sim_pedigree 2 1 (fun _ => 0)).1.length = (1 + 1) * 2 ∧
    (sim_pedigree 2 1 (fun _ => 0)).2.length = 2 * ((1 + 1) * 2) ∧
    (∀ q, q < 2 * ((1 + 1) * 2) →
      (((sim_pedigree 2 1 (fun _ => 0)).2.getD q default).time = 0 ↔ 2 * 1 * 2 ≤ q) ∧
      (((sim_pedigree 2 1 (fun _ => 0)).2.getD q default).flags = 1 ↔
        ((sim_pedigree 2 1 (fun _ => 0)).2.getD q default).time = 0) ∧
      (((sim_pedigree 2 1 (fun _ => 0)).2.getD q default).flags = 0 ↔ q < 2 * 1 * 2)) ∧
    (∀ r, r < 2 → ((sim_pedigree 2 1 (fun _ => 0)).1.getD r default).father = -1 ∧
      ((sim_pedigree 2 1 (fun _ => 0)).1.getD r default).mother = -1) :=
  sim_pedigree_counts_flags_founders 2 1 (fun _ => 0) (by decide)

theorem sim_pedigree_parent_indices_witness :
    (2 < 2 → ((sim_pedigree 2 1 (fun _ => 0)).1.getD 2 default).father = -1 ∧
      ((sim_pedigree 2 1 (fun _ => 0)).1.getD 2 default).mother = -1) ∧
    (∀ x, (x = ((sim_pedigree 2 1 (fun _ => 0)).1.getD 2 default).father ∨
           x = ((sim_pedigree 2 1 (fun _ => 0)).1.getD 2 default).mother) →
      x = -1 ∨ (2 ≤ 2 ∧ ∃ i, i < 2 ∧
        x = (((2 / 2 - 1) * 2 + i : ℕ) : Int) ∧ x.toNat < 2)) :=
  sim_pedigree_parent_indices 2 1 (fun _ => 0) (by decide) 2 (by decide)

/-! ## Time inference (`Pedigree.get_times`) -/

/-- The non-negative entries of `parents[c]`, i.e. the real parent indices of
individual `c` (`[p for p in parents[c_idx] if p >= 0]`). -/
def posParents (parents : List (List Int)) (c : ℕ) : List ℕ :=
  (parents.getD c []).filterMap (fun p => if 0 ≤ p then some p.toNat else none)

/-- `j` is a (real) parent of `i` in the parent-index matrix. -/
def pstep (parents : List (List Int)) (i j : ℕ) : Prop :=
  (j : Int) ∈ parents.getD i []

instance (parents : List (List Int)) (i j : ℕ) : Decidable (pstep parents i j) := by
  unfold pstep
  infer_instance

/-- `set(range(n)).difference(parents.ravel())`: the proband indices. -/
def probandFinset (parents : List (List Int)) (n : ℕ) : Finset ℕ :=
  (Finset.range n).filter (fun i => ¬ (i : Int) ∈ parents.flatten)

/-- `list(set(next_climbers))`: all real parents of the current frontier. -/
def nextFrontier (parents : List (List Int)) (f : Finset ℕ) : Finset ℕ :=
  f.biUnion (fun c => (posParents parents c).toFinset)

/-- The `while len(climber_indices) > 0` loop of `get_times`, with explicit
fuel.  The state is the `time` assignment, the current frontier and the level
counter `t`; one iteration raises `time[c]` to `t` for every `c` in the
frontier with `time[c] < t` and replaces the frontier by the set of its real
parents.  Returns `none` when the fuel is exhausted before the frontier
empties. -/
def climb (parents : List (List Int)) :
    ℕ → (ℕ → ℕ) → Finset ℕ → ℕ → Option (ℕ → ℕ)
  | 0, time, frontier, _ => if frontier = ∅ then some time else none
  | fuel + 1, time, frontier, t =>
    if frontier = ∅ then some time
    else climb parents fuel
      (fun i => if i ∈ frontier ∧ time i < t then t else time i)
      (nextFrontier parents frontier) (t + 1)

/-- `Pedigree.get_times(individual, parents=parents)` with the given fuel:
`time = np.zeros(len(individual))`, the frontier starts as the probands and
the counter at `0`. -/
def getTimesFuel (individual : List Int) (parents : List (List Int)) (fuel : ℕ) :
    Option (ℕ → ℕ) :=
  climb parents fuel (fun _ => 0) (probandFinset parents individual.length) 0

/-- Iterated frontier: `frontierAt start t` is the frontier before iteration `t`. -/
def frontierAt (parents : List (List Int)) (start : Finset ℕ) : ℕ → Finset ℕ
  | 0 => start
  | t + 1 => nextFrontier parents (frontierAt parents start t)

/-- A walk of length `k` along child-to-parent edges, given as a vertex
function. -/
def IsWalk (parents : List (List Int)) (w : ℕ → ℕ) (k : ℕ) : Prop :=
  ∀ s, s < k → pstep parents (w s) (w (s + 1))

/-- The parent relation has no (positive-length) closed walk. -/
def AcyclicParents (parents : List (List Int)) : Prop :=
  ∀ w k, 0 < k → IsWalk parents w k → w k = w 0 → False

/-- Every parent entry is `< n` (sentinel entries are negative, hence `< n`). -/
def ParentsInRange (parents : List (List Int)) (n : ℕ) : Prop :=
  ∀ p ∈ parents.flatten, p < (n : Int)

instance (parents : List (List Int)) (n : ℕ) : Decidable (ParentsInRange parents n) := by
  unfold ParentsInRange
  infer_instance

/-- `i` is a proband index: `i < n` and `i` never occurs as a parent entry. -/
def Proband (parents : List (List Int)) (n i : ℕ) : Prop :=
  i < n ∧ ¬ (i : Int) ∈ parents.flatten

/-- `i` is the endpoint of some walk of length `t` starting at a proband:
there is a path of length `t` from a proband to `i` in the parent DAG. -/
def ReachedIn (parents : List (List Int)) (n t i : ℕ) : Prop :=
  ∃ w, IsWalk parents w t ∧ Proband parents n (w 0) ∧ w t = i

lemma mem_posParents (parents : List (List Int)) (c j : ℕ) :
    j ∈ posParents parents c ↔ pstep parents c j := by
  rw [posParents, pstep, List.mem_filterMap]
  constructor
  · rintro ⟨p, hp, hpj⟩
    by_cases h0 : 0 ≤ p
    · rw [if_pos h0] at hpj
      have : p = (j : Int) := by
        cases hpj
        omega
      rw [← this]
      exact hp
    · rw [if_neg h0] at hpj
      cases hpj
  · intro hj
    exact ⟨(j : Int), hj, by rw [if_pos (by omega)]; simp⟩

lemma mem_probandFinset (parents : List (List Int)) (n i : ℕ) :
    i ∈ probandFinset parents n ↔ Proband parents n i := by
  rw [probandFinset, Finset.mem_filter, Finset.mem_range, Proband]

lemma pstep_lt (parents : List (List Int)) (n : ℕ)
    (hrange : ParentsInRange parents n) (i j : ℕ) (h : pstep parents i j) : j < n := by
  rw [pstep] at h
  have hmem : (j : Int) ∈ parents.flatten := by
    rcases Nat.lt_or_ge i parents.length with hi | hi
    · rw [List.getD_eq_getElem _ _ hi] at h
      exact List.mem_flatten.mpr ⟨parents[i], List.getElem_mem hi, h⟩
    · rw [List.getD_eq_default _ _ hi] at h
      cases h
  have := hrange _ hmem
  omega

/-- Extension of a walk by one parent step. -/
lemma walk_extend (parents : List (List Int)) (w : ℕ → ℕ) (k j : ℕ)
    (hw : IsWalk parents w k) (hs : pstep parents (w k) j) :
    IsWalk parents (fun s => if s ≤ k then w s else j) (k + 1) ∧
    (fun s => if s ≤ k then w s else j) 0 = w 0 ∧
    (fun s => if s ≤ k then w s else j) (k + 1) = j := by
  refine ⟨?_, by simp, by simp⟩
  intro s hsk
  by_cases hcase : s < k
  · simp only [if_pos (by omega : s ≤ k), if_pos (by omega : s + 1 ≤ k)]
    exact hw s hcase
  · have hse : s = k := by omega
    subst hse
    simp only [if_pos (le_refl s), if_neg (by omega : ¬ s + 1 ≤ s)]
    exact hs

lemma mem_frontierAt (parents : List (List Int)) (n : ℕ) :
    ∀ t i, i ∈ frontierAt parents (probandFinset parents n) t ↔
      ReachedIn parents n t i := by
  intro t
  induction t with
  | zero =>
    intro i
    rw [frontierAt, mem_probandFinset, ReachedIn]
    constructor
    · intro hp
      exact ⟨fun _ => i, fun s hs => absurd hs (by omega), hp, rfl⟩
    · rintro ⟨w, -, hp, hend⟩
      rw [← hend]
      exact hp
  | succ t ih =>
    intro i
    rw [frontierAt, nextFrontier, Finset.mem_biUnion]
    constructor
    · rintro ⟨c, hc, hi⟩
      rw [List.mem_toFinset, mem_posParents] at hi
      obtain ⟨w, hw, hp, hend⟩ := (ih c).mp hc
      obtain ⟨hw2, h0, hk⟩ := walk_extend parents w t i hw (by rw [hend]; exact hi)
      exact ⟨_, hw2, by simpa using hp, hk⟩
    · rintro ⟨w, hw, hp, hend⟩
      refine ⟨w t, (ih (w t)).mpr ⟨w, fun s hs => hw s (by omega), hp, rfl⟩, ?_⟩
      rw [List.mem_toFinset, mem_posParents, ← hend]
      exact hw t (by omega)

lemma walk_vertices_lt (parents : List (List Int)) (n : ℕ)
    (hrange : ParentsInRange parents n) (w : ℕ → ℕ) (k : ℕ)
    (hw : IsWalk parents w k) (h0 : w 0 < n) : ∀ s, s ≤ k → w s < n := by
  intro s
  induction s with
  | zero => intro _; exact h0
  | succ s _ =>
    intro hs
    exact pstep_lt parents n hrange _ _ (hw s (by omega))

lemma acyclic_no_repeat (parents : List (List Int))
    (hac : AcyclicParents parents) (w : ℕ → ℕ) (k a b : ℕ)
    (hw : IsWalk parents w k) (hab : a < b) (hbk : b ≤ k) (heq : w a = w b) : False := by
  refine hac (fun s => w (a + s)) (b - a) (by omega) ?_ ?_
  · intro s hs
    have hstep := hw (a + s) (by omega)
    have hadd : a + s + 1 = a + (s + 1) := by omega
    rw [hadd] at hstep
    exact hstep
  · show w (a + (b - a)) = w (a + 0)
    have h1 : a + (b - a) = b := by omega
    have h2 : a + 0 = a := by omega
    rw [h1, h2, heq]

/-- In an acyclic parent graph on `n` individuals, no walk that starts below
`n` can have length `n` or more: its `k+1` vertices would repeat, yielding a
closed walk. -/
lemma acyclic_walk_lt (parents : List (List Int)) (n : ℕ)
    (hac : AcyclicParents parents) (hrange : ParentsInRange parents n)
    (w : ℕ → ℕ) (k : ℕ) (hw : IsWalk parents w k) (h0 : w 0 < n) : k < n := by
  by_contra hk
  push_neg at hk
  have hmaps : ∀ a ∈ Finset.range (k + 1), w a ∈ Finset.range n := by
    intro a ha
    rw [Finset.mem_range] at ha ⊢
    exact walk_vertices_lt parents n hrange w k hw h0 a (by omega)
  have hcard : (Finset.range n).card < (Finset.range (k + 1)).card := by
    simp
    omega
  obtain ⟨a, ha, b, hb, hab, heq⟩ :=
    Finset.exists_ne_map_eq_of_card_lt_of_maps_to hcard hmaps
  rw [Finset.mem_range] at ha hb
  rcases Nat.lt_or_ge a b with hlt | hge
  · exact acyclic_no_repeat parents hac w k a b hw hlt (by omega) heq
  · have hba : b < a := by omega
    exact acyclic_no_repeat parents hac w k b a hw hba (by omega) heq.symm

lemma frontierAt_empty_n (individual : List Int) (parents : List (List Int))
    (hac : AcyclicParents parents)
    (hrange : ParentsInRange parents individual.length) :
    frontierAt parents (probandFinset parents individual.length) individual.length = ∅ := by
  rw [Finset.eq_empty_iff_forall_not_mem]
  intro i hi
  rw [mem_frontierAt] at hi
  obtain ⟨w, hw, hp, -⟩ := hi
  exact absurd (acyclic_walk_lt parents individual.length hac hrange w
    individual.length hw hp.1) (by omega)

lemma frontierAt_add_empty (parents : List (List Int)) (start : Finset ℕ) (K : ℕ)
    (hK : frontierAt parents start K = ∅) :
    ∀ d, frontierAt parents start (K + d) = ∅ := by
  intro d
  induction d with
  | zero => simpa using hK
  | succ d ih =>
    show nextFrontier parents (frontierAt parents start (K + d)) = ∅
    rw [ih]
    simp [nextFrontier]

/-- Full characterisation of the climb loop: provided the frontier empties
within the available fuel, the loop returns, and the returned time of `i` is
the maximum of its initial time and the largest level `u ≥ s` at which `i` is
in the frontier. -/
lemma climb_spec (parents : List (List Int)) (start : Finset ℕ) :
    ∀ (fuel s : ℕ) (time0 : ℕ → ℕ), frontierAt parents start (s + fuel) = ∅ →
    ∃ T, climb parents fuel time0 (frontierAt parents start s) s = some T ∧
      ∀ i, (T i = time0 i ∨ (s ≤ T i ∧ i ∈ frontierAt parents start (T i))) ∧
           time0 i ≤ T i ∧
           ∀ u, s ≤ u → i ∈ frontierAt parents start u → u ≤ T i := by
  intro fuel
  induction fuel with
  | zero =>
    intro s time0 hstop
    rw [Nat.add_zero] at hstop
    refine ⟨time0, by rw [climb, if_pos hstop], ?_⟩
    intro i
    refine ⟨Or.inl rfl, le_refl _, ?_⟩
    intro u hsu hmem
    obtain ⟨d, rfl⟩ := Nat.exists_eq_add_of_le hsu
    rw [frontierAt_add_empty parents start s hstop d] at hmem
    cases hmem
  | succ fuel ih =>
    intro s time0 hstop
    by_cases hemp : frontierAt parents start s = ∅
    · refine ⟨time0, by rw [climb, if_pos hemp], ?_⟩
      intro i
      refine ⟨Or.inl rfl, le_refl _, ?_⟩
      intro u hsu hmem
      obtain ⟨d, rfl⟩ := Nat.exists_eq_add_of_le hsu
      rw [frontierAt_add_empty parents start s hemp d] at hmem
      cases hmem
    · have hstop2 : frontierAt parents start ((s + 1) + fuel) = ∅ := by
        have hx : (s + 1) + fuel = s + (fuel + 1) := by omega
        rw [hx]
        exact hstop
      obtain ⟨T, hT, hprop⟩ := ih (s + 1)
        (fun i => if i ∈ frontierAt parents start s ∧ time0 i < s then s else time0 i)
        hstop2
      refine ⟨T, ?_, ?_⟩
      · rw [climb, if_neg hemp]
        exact hT
      intro i
      obtain ⟨hdis, hle, hub⟩ := hprop i
      constructor
      · rcases hdis with hTi | ⟨hsT, hmem⟩
        · by_cases hc : i ∈ frontierAt parents start s ∧ time0 i < s
          · rw [if_pos hc] at hTi
            exact Or.inr ⟨by omega, by rw [hTi]; exact hc.1⟩
          · rw [if_neg hc] at hTi
            exact Or.inl hTi
        · exact Or.inr ⟨by omega, hmem⟩
      constructor
      · by_cases hc : i ∈ frontierAt parents start s ∧ time0 i < s
        · rw [if_pos hc] at hle
          omega
        · rw [if_neg hc] at hle
          exact hle
      · intro u hsu hmem
        rcases Nat.eq_or_lt_of_le hsu with hequ | hltu
        · rw [← hequ] at hmem ⊢
          by_cases hc : i ∈ frontierAt parents start s ∧ time0 i < s
          · rw [if_pos hc] at hle
            exact hle
          · have h0 : ¬ time0 i < s := fun hcon => hc ⟨hmem, hcon⟩
            rw [if_neg hc] at hle
            omega
        · exact hub u hltu hmem

lemma transGen_gives_walk (parents : List (List Int)) (n : ℕ) (a b : Fin n)
    (h : Relation.TransGen (fun x y : Fin n => pstep parents x.val y.val) a b) :
    ∃ k w, 0 < k ∧ IsWalk parents w k ∧ w 0 = a.val ∧ w k = b.val := by
  induction h with
  | single hs =>
    rename_i c
    refine ⟨1, fun s => if s = 0 then a.val else c.val, by omega, ?_, by simp, by simp⟩
    intro s hs1
    have hs0 : s = 0 := by omega
    subst hs0
    simpa using hs
  | tail hab hbc ih =>
    rename_i b2 c
    obtain ⟨k, w, hk, hw, h0, hend⟩ := ih
    obtain ⟨hw2, h02, hend2⟩ := walk_extend parents w k c.val hw (by rw [hend]; exact hbc)
    exact ⟨k + 1, _, by omega, hw2, by simpa using h0, hend2⟩

lemma pstep_wellFounded (parents : List (List Int)) (n : ℕ)
    (hac : AcyclicParents parents) :
    WellFounded (fun x y : Fin n => pstep parents x.val y.val) := by
  have hirr : IsIrrefl (Fin n)
      (Relation.TransGen (fun x y : Fin n => pstep parents x.val y.val)) := by
    constructor
    intro a ha
    obtain ⟨k, w, hk, hw, h0, hend⟩ := transGen_gives_walk parents n a a ha
    exact hac w k hk hw (by rw [hend, h0])
  have htr : IsTrans (Fin n)
      (Relation.TransGen (fun x y : Fin n => pstep parents x.val y.val)) := by
    constructor
    intro a b c hab hbc
    exact Relation.TransGen.trans hab hbc
  have hwf := Finite.wellFounded_of_trans_of_irrefl
    (Relation.TransGen (fun x y : Fin n => pstep parents x.val y.val))
  refine Subrelation.wf ?_ hwf
  intro x y h
  exact Relation.TransGen.single h

/-- Every individual index is in some frontier: descend child-ward from the
individual until a proband is reached (possible because the graph is finite
and acyclic), then climb back up. -/
lemma exists_frontier_mem (individual : List Int) (parents : List (List Int))
    (hlen : parents.length = individual.length)
    (hac : AcyclicParents parents) :
    ∀ i, i < individual.length →
      ∃ u, i ∈ frontierAt parents (probandFinset parents individual.length) u := by
  have hmain : ∀ a : Fin individual.length,
      ∃ u, a.val ∈ frontierAt parents (probandFinset parents individual.length) u := by
    intro a
    refine @WellFounded.induction (Fin individual.length)
      (fun x y => pstep parents x.val y.val)
      (pstep_wellFounded parents individual.length hac)
      (fun a => ∃ u, a.val ∈ frontierAt parents
        (probandFinset parents individual.length) u) a ?_
    intro x IH
    by_cases hp : (x.val : Int) ∈ parents.flatten
    · obtain ⟨row, hrow, hmem⟩ := List.mem_flatten.mp hp
      obtain ⟨c, hc, hceq⟩ := List.mem_iff_getElem.mp hrow
      have hcn : c < individual.length := by omega
      have hstep : pstep parents c x.val := by
        rw [pstep, List.getD_eq_getElem _ _ hc, hceq]
        exact hmem
      obtain ⟨u, hu⟩ := IH ⟨c, hcn⟩ hstep
      refine ⟨u + 1, ?_⟩
      show x.val ∈ nextFrontier parents
        (frontierAt parents (probandFinset parents individual.length) u)
      rw [nextFrontier, Finset.mem_biUnion]
      exact ⟨c, hu, by rw [List.mem_toFinset, mem_posParents]; exact hstep⟩
    · exact ⟨0, (mem_probandFinset parents individual.length x.val).mpr ⟨x.isLt, hp⟩⟩
  intro i hi
  exact hmain ⟨i, hi⟩

lemma getTimesFuel_spec (individual : List Int) (parents : List (List Int))
    (hac : AcyclicParents parents)
    (hrange : ParentsInRange parents individual.length) :
    ∃ T, getTimesFuel individual parents individual.length = some T ∧
      ∀ i, (T i = 0 ∨
             i ∈ frontierAt parents (probandFinset parents individual.length) (T i)) ∧
           ∀ u, i ∈ frontierAt parents (probandFinset parents individual.length) u →
             u ≤ T i := by
  have hstop : frontierAt parents (probandFinset parents individual.length)
      (0 + individual.length) = ∅ := by
    rw [Nat.zero_add]
    exact frontierAt_empty_n individual parents hac hrange
  obtain ⟨T, hT, hprop⟩ := climb_spec parents
    (probandFinset parents individual.length) individual.length 0 (fun _ => 0) hstop
  refine ⟨T, hT, ?_⟩
  intro i
  obtain ⟨hdis, -, hub⟩ := hprop i
  exact ⟨hdis.imp (fun h => h) (fun h => h.2), fun u hm => hub u (by omega) hm⟩

/-- C3: on a finite acyclic in-range parent matrix the climb of
`Pedigree.get_times` succeeds and assigns to every individual the length of
the longest path from any proband to it in the parent DAG: the assigned time
is attained by some proband-to-individual path and bounds the length of every
such path. -/
theorem get_times_longest_path (individual : List Int) (parents : List (List Int))
    (hlen : parents.length = individual.length)
    (hrange : ParentsInRange parents individual.length)
    (hac : AcyclicParents parents) :
    ∃ T, getTimesFuel individual parents individual.length = some T ∧
      ∀ i, i < individual.length →
        ReachedIn parents individual.length (T i) i ∧
        ∀ t, ReachedIn parents individual.length t i → t ≤ T i := by
  obtain ⟨T, hT, hprop⟩ := getTimesFuel_spec individual parents hac hrange
  refine ⟨T, hT, ?_⟩
  intro i hi
  obtain ⟨hdis, hub⟩ := hprop i
  constructor
  · rcases hdis with h0 | hmem
    · obtain ⟨u, hu⟩ := exists_frontier_mem individual parents hlen hac i hi
      have hu0 : u = 0 := by
        have := hub u hu
        omega
      subst hu0
      rw [mem_frontierAt] at hu
      rw [h0]
      exact hu
    · rw [mem_frontierAt] at hmem
      exact hmem
  · intro t ht
    exact hub t ((mem_frontierAt parents individual.length t i).mpr ht)

/-- C9: on a finite acyclic in-range parent matrix, the wavefront climb loop
of `Pedigree.get_times` terminates: fuel `len(individual)` never runs out. -/
theorem get_times_climb_terminates (individual : List Int) (parents : List (List Int))
    (hrange : ParentsInRange parents individual.length)
    (hac : AcyclicParents parents) :
    (getTimesFuel individual parents individual.length).isSome = true := by
  obtain ⟨T, hT, -⟩ := getTimesFuel_spec individual parents hac hrange
  rw [hT]
  rfl

/-- If every parent entry is a strictly larger index than its row, the parent
relation is acyclic (every walk is strictly increasing). -/
lemma acyclic_of_increasing (parents : List (List Int))
    (h : ∀ c j : ℕ, (j : Int) ∈ parents.getD c [] → c < j) :
    AcyclicParents parents := by
  intro w k hk hw hend
  have hmono : ∀ s, s ≤ k → w 0 ≤ w s ∧ (0 < s → w 0 < w s) := by
    intro s
    induction s with
    | zero => exact fun _ => ⟨le_refl _, fun hcon => absurd hcon (by omega)⟩
    | succ s ih =>
      intro hs
      have hstep := h (w s) (w (s + 1)) (hw s (by omega))
      obtain ⟨h1, -⟩ := ih (by omega)
      exact ⟨by omega, fun _ => by omega⟩
  obtain ⟨-, h2⟩ := hmono k (le_refl k)
  have := h2 hk
  omega

theorem get_times_longest_path_witness :
    ∃ T, getTimesFuel [1, 2, 3] [[1, -1], [2, -1], [-1, -1]] 3 = some T ∧
      ∀ i, i < 3 →
        ReachedIn [[1, -1], [2, -1], [-1, -1]] 3 (T i) i ∧
        ∀ t, ReachedIn [[1, -1], [2, -1], [-1, -1]] 3 t i → t ≤ T i :=
  get_times_longest_path [1, 2, 3] [[1, -1], [2, -1], [-1, -1]] (by decide) (by decide)
    (acyclic_of_increasing _ (by
      intro c j hj
      rcases c with _ | _ | _ | c
      · simp at hj
        omega
      · simp at hj
        omega
      · simp at hj
      · simp [List.getD_cons_succ, List.getD_nil] at hj))

theorem get_times_climb_terminates_witness :
    (getTimesFuel [1, 2] [[1, 1], [-1, -1]] 2).isSome = true :=
  get_times_climb_terminates [1, 2] [[1, 1], [-1, -1]] (by decide)
    (acyclic_of_increasing _ (by
      intro c j hj
      rcases c with _ | _ | c
      · simp at hj
        omega
      · simp at hj
      · simp [List.getD_cons_succ, List.getD_nil] at hj))

/-! ## The Pedigree class -/

/-- `np.min` of an integer array; numpy raises on an empty array, modelled as
`none`. -/
def listMin? : List Int → Option Int
  | [] => none
  | x :: xs =>
    match listMin? xs with
    | none => some x
    | some m => some (min x m)

/-- The state of a `Pedigree` object.  `num_samples` is `none` when the
attribute has never been assigned. -/
structure Pedigree where
  individual : List Int
  parents : List (List Int)
  time : List Rat
  sex : Option Int
  ploidy : Int
  is_sample : Option (List ℕ)
  num_samples : Option ℕ
deriving DecidableEq

/-- `Pedigree.__init__`.  Checks, in source order: `ploidy != 2`; `sex is not
None`; `parents.shape[1] != ploidy` (the numpy row width, modelled as the
length of the first row — the theorems assume a rectangular matrix);
`np.min(individual) <= 0` (numpy raises on an empty array, folded into the
same error model).  When `is_sample` is given, `num_samples` is the number of
entries equal to `1`. -/
def pedInit (individual : List Int) (parents : List (List Int)) (time : List Rat)
    (is_sample : Option (List ℕ)) (sex : Option Int) (ploidy : Int) :
    Except String Pedigree :=
  if ploidy ≠ 2 then .error "Ploidy != 2 not currently supported"
  else if sex.isSome then .error "Assigning individual sexes not currently supported"
  else if ((parents.headD []).length : Int) ≠ ploidy then
    .error "Ploidy conflicts with number of parents"
  else
    match listMin? individual with
    | none => .error "zero-size array to reduction operation minimum"
    | some m =>
      if m ≤ 0 then .error "Individual IDs must be > 0"
      else .ok { individual := individual, parents := parents, time := time,
                 sex := none, ploidy := ploidy, is_sample := is_sample,
                 num_samples := is_sample.map (fun l => l.count 1) }

lemma listMin?_eq_none (l : List Int) : listMin? l = none ↔ l = [] := by
  cases l with
  | nil => simp [listMin?]
  | cons x xs =>
    constructor
    · intro h
      cases hxs : listMin? xs <;> simp [listMin?, hxs] at h
    · intro h
      cases h

lemma listMin?_spec : ∀ l : List Int, l ≠ [] →
    ∃ m, listMin? l = some m ∧ m ∈ l ∧ ∀ x ∈ l, m ≤ x := by
  intro l
  induction l with
  | nil => intro h; exact absurd rfl h
  | cons x xs ih =>
    intro _
    cases hxs : listMin? xs with
    | none =>
      have hnil : xs = [] := (listMin?_eq_none xs).mp hxs
      subst hnil
      refine ⟨x, by simp [listMin?], by simp, ?_⟩
      intro y hy
      rw [List.mem_singleton] at hy
      subst hy
      exact le_refl _
    | some m =>
      have hne2 : xs ≠ [] := by
        intro hcon
        subst hcon
        simp [listMin?] at hxs
      obtain ⟨m2, hm2, hmem, hle⟩ := ih hne2
      rw [hm2] at hxs
      injection hxs with hmeq
      subst hmeq
      refine ⟨min x m2, by simp [listMin?, hm2], ?_, ?_⟩
      · rcases le_total x m2 with h | h
        · rw [min_eq_left h]
          simp
        · rw [min_eq_right h]
          exact List.mem_cons_of_mem x hmem
      · intro y hy
        rcases List.mem_cons.mp hy with rfl | hmem2
        · exact min_le_left _ _
        · exact le_trans (min_le_right _ _) (hle y hmem2)

/-- C2 counterexample: an input with duplicate identifiers (`[1, 1]`) and a
time-ordering violation (individual `0` has time `5`, its parent (index `1`)
has time `3`) is accepted by the constructor: neither uniqueness nor the time
ordering is checked at construction. -/
theorem pedigree_init_accepts_dup_and_time_violation :
    (pedInit [1, 1] [[1, -1], [-1, -1]] [5, 3] none none 2).isOk = true := by
  decide

/-- C2 (amended): the constructor raises exactly when `ploidy ≠ 2`, a sex is
supplied, the parent-matrix column count differs from `ploidy`, or some
identifier is `≤ 0` (an empty identifier array also raises, inside `np.min`);
identifier uniqueness and the child-younger-than-parent time ordering are not
checked at construction. -/
theorem pedigree_init_ok_iff (individual : List Int) (parents : List (List Int))
    (time : List Rat) (is_sample : Option (List ℕ)) (sex : Option Int)
    (ploidy : Int) (w : ℕ)
    (hne : parents ≠ []) (hrect : ∀ row ∈ parents, row.length = w) :
    (pedInit individual parents time is_sample sex ploidy).isOk = true ↔
      (ploidy = 2 ∧ sex = none ∧ (w : Int) = ploidy ∧ individual ≠ [] ∧
        ∀ x ∈ individual, 0 < x) := by
  obtain ⟨p, ps, rfl⟩ : ∃ p ps, parents = p :: ps := by
    cases parents with
    | nil => exact absurd rfl hne
    | cons p ps => exact ⟨p, ps, rfl⟩
  have hw : p.length = w := hrect p (by simp)
  by_cases h1 : ploidy = 2
  · by_cases h2 : sex = none
    · by_cases h3 : ((p.length : ℕ) : Int) = ploidy
      · rw [pedInit, if_neg (fun hc => hc h1), if_neg (by simp [h2]),
            if_neg (by simp only [List.headD_cons]; exact fun hc => hc h3)]
        cases hmin : listMin? individual with
        | none =>
          refine iff_of_false (by simp [Except.isOk, Except.toBool]) ?_
          rw [listMin?_eq_none] at hmin
          rintro ⟨-, -, -, hne2, -⟩
          exact hne2 hmin
        | some m =>
          obtain ⟨m2, hm2, hmem, hle⟩ := listMin?_spec individual (by
            intro hcon
            rw [hcon, listMin?] at hmin
            cases hmin)
          rw [hm2] at hmin
          injection hmin with hmeq
          subst hmeq
          dsimp only
          by_cases h4 : m2 ≤ 0
          · rw [if_pos h4]
            refine iff_of_false (by simp [Except.isOk, Except.toBool]) ?_
            rintro ⟨-, -, -, -, hall⟩
            exact absurd (hall m2 hmem) (by omega)
          · rw [if_neg h4]
            refine iff_of_true (by simp [Except.isOk, Except.toBool]) ?_
            refine ⟨h1, h2, by rw [← hw]; exact h3, ?_, ?_⟩
            · intro hcon
              rw [hcon, listMin?] at hm2
              cases hm2
            · intro x hx
              have := hle x hx
              omega
      · rw [pedInit, if_neg (fun hc => hc h1), if_neg (by simp [h2]),
            if_pos (by simp only [List.headD_cons]; exact h3)]
        refine iff_of_false (by simp [Except.isOk, Except.toBool]) ?_
        rintro ⟨-, -, hww, -, -⟩
        exact h3 (by rw [hw]; exact hww)
    · rw [pedInit, if_neg (fun hc => hc h1),
          if_pos (by rwa [Option.isSome_iff_ne_none])]
      refine iff_of_false (by simp [Except.isOk, Except.toBool]) ?_
      rintro ⟨-, h2c, -⟩
      exact h2 h2c
  · rw [pedInit, if_pos h1]
    refine iff_of_false (by simp [Except.isOk, Except.toBool]) ?_
    rintro ⟨h1c, -⟩
    exact h1 h1c

theorem pedigree_init_ok_iff_witness :
    ((pedInit [1, 2] [[-1, -1], [1, -1]] [1, 0] none none 2).isOk = true ↔
      ((2 : Int) = 2 ∧ (none : Option Int) = none ∧ ((2 : ℕ) : Int) = 2 ∧
        ([1, 2] : List Int) ≠ [] ∧ ∀ x ∈ ([1, 2] : List Int), 0 < x)) :=
  pedigree_init_ok_iff [1, 2] [[-1, -1], [1, -1]] [1, 0] none none 2 2
    (by decide) (by decide)

/-- `set(range(len(individual))).difference(parents.ravel())`: the proband
indices (an index that never occurs in the flattened parent matrix), as an
ascending list. -/
def probandList (individual : List Int) (parents : List (List Int)) : List ℕ :=
  (List.range individual.length).filter (fun i => decide ((i : Int) ∉ parents.flatten))

/-- `is_sample[sample_indices] = 1` applied to `np.zeros(n)`. -/
def setOnes (n : ℕ) (idxs : List ℕ) : List ℕ :=
  (List.range n).map (fun i => if i ∈ idxs then 1 else 0)

/-- `np.random.choice(pool, size=k, replace=False)`: `k` draws without
replacement, driven by the oracle; each draw removes the drawn position from
the pool. -/
def chooseNoReplace (pick : ℕ → ℕ) : ℕ → List ℕ → ℕ → List ℕ
  | _, _, 0 => []
  | ctr, pool, k + 1 =>
    pool.getD (pick ctr % pool.length) 0 ::
      chooseNoReplace pick (ctr + 1) (pool.eraseIdx (pick ctr % pool.length)) k

/-- `Pedigree.set_samples`.  The returned pair is the state of the object
after the call together with the raised error, if any: a Python method that
raises after assigning attributes leaves those assignments in place, so the
state component reflects every assignment executed before the raise. -/
def set_samples (p : Pedigree) (pick : ℕ → ℕ) (num_samples : Option ℕ)
    (sample_IDs : Option (List Int)) (probands_only : Bool) :
    Pedigree × Option String :=
  if probands_only ≠ true then
    (p, some "Only probands may currently be set as samples.")
  else if num_samples.isNone ∧ sample_IDs.isNone then
    (p, some "Must specify one of num_samples of sample_IDs")
  else if num_samples.isSome ∧ sample_IDs.isSome then
    (p, some "Cannot specify both samples and num_samples.")
  else
    let n := p.individual.length
    let p1 := { p with is_sample := some (List.replicate n 0) }
    let probands := probandList p.individual p.parents
    match num_samples, sample_IDs with
    | some k, _ =>
      let p2 := { p1 with num_samples := some k }
      if probands.length < k then
        (p2, some "Cannot specify more samples than there are probands in the pedigree")
      else
        let sample_indices := chooseNoReplace pick 0 probands k
        if sample_indices.length ≠ k then
          (p2, some "Sample size mismatch - duplicate sample IDs or sample ID not in pedigree")
        else ({ p2 with is_sample := some (setOnes n sample_indices) }, none)
    | none, some ids =>
      let p2 := { p1 with num_samples := some ids.length }
      let sample_indices := probands.filter (fun i => ids.contains (p.individual.getD i 0))
      if sample_indices.length ≠ ids.length then
        (p2, some "Sample size mismatch - duplicate sample IDs or sample ID not in pedigree")
      else ({ p2 with is_sample := some (setOnes n sample_indices) }, none)
    | none, none => (p, some "unreachable")

lemma probandList_nodup (individual : List Int) (parents : List (List Int)) :
    (probandList individual parents).Nodup :=
  (List.nodup_range _).filter _

lemma probandList_lt (individual : List Int) (parents : List (List Int)) :
    ∀ i ∈ probandList individual parents, i < individual.length := by
  intro i hi
  rw [probandList, List.mem_filter] at hi
  exact List.mem_range.mp hi.1

lemma probandList_not_parent (individual : List Int) (parents : List (List Int)) :
    ∀ i ∈ probandList individual parents, (i : Int) ∉ parents.flatten := by
  intro i hi
  rw [probandList, List.mem_filter] at hi
  exact of_decide_eq_true hi.2

lemma nodup_not_mem_eraseIdx : ∀ (l : List ℕ) (i : ℕ), l.Nodup → i < l.length →
    l.getD i 0 ∉ l.eraseIdx i := by
  intro l
  induction l with
  | nil => intro i _ hi; simp at hi
  | cons x xs ih =>
    intro i hnd hi
    cases i with
    | zero =>
      simpa using (List.nodup_cons.mp hnd).1
    | succ i =>
      rw [List.getD_cons_succ, List.eraseIdx_cons_succ]
      intro hmem
      rcases List.mem_cons.mp hmem with heq | hmem2
      · have hmm : xs.getD i 0 ∈ xs := by
          rw [List.getD_eq_getElem _ _ (by simpa using hi)]
          exact List.getElem_mem _
        rw [heq] at hmm
        exact (List.nodup_cons.mp hnd).1 hmm
      · exact ih i (List.nodup_cons.mp hnd).2 (by simpa using hi) hmem2

lemma chooseNoReplace_spec (pick : ℕ → ℕ) :
    ∀ (k ctr : ℕ) (pool : List ℕ), k ≤ pool.length → pool.Nodup →
    (chooseNoReplace pick ctr pool k).length = k ∧
    (chooseNoReplace pick ctr pool k).Nodup ∧
    ∀ x ∈ chooseNoReplace pick ctr pool k, x ∈ pool := by
  intro k
  induction k with
  | zero =>
    intro ctr pool _ _
    refine ⟨rfl, List.nodup_nil, ?_⟩
    intro x hx
    cases hx
  | succ k ih =>
    intro ctr pool hk hnd
    have hpos : 0 < pool.length := by omega
    have hidx : pick ctr % pool.length < pool.length := Nat.mod_lt _ hpos
    have herlen : (pool.eraseIdx (pick ctr % pool.length)).length = pool.length - 1 := by
      rw [List.length_eraseIdx]
      simp [hidx]
    have hernd : (pool.eraseIdx (pick ctr % pool.length)).Nodup :=
      (List.eraseIdx_sublist pool _).nodup hnd
    obtain ⟨hlen, hnd2, hsub⟩ := ih (ctr + 1)
      (pool.eraseIdx (pick ctr % pool.length)) (by omega) hernd
    have hheadmem : pool.getD (pick ctr % pool.length) 0 ∈ pool := by
      rw [List.getD_eq_getElem _ _ hidx]
      exact List.getElem_mem hidx
    have hheadnot : pool.getD (pick ctr % pool.length) 0 ∉
        pool.eraseIdx (pick ctr % pool.length) :=
      nodup_not_mem_eraseIdx pool _ hnd hidx
    refine ⟨by simp [chooseNoReplace, hlen], ?_, ?_⟩
    · rw [chooseNoReplace]
      exact List.nodup_cons.mpr ⟨fun hmem => hheadnot (hsub _ hmem), hnd2⟩
    · intro x hx
      rw [chooseNoReplace] at hx
      rcases List.mem_cons.mp hx with rfl | hx2
      · exact hheadmem
      · exact (List.eraseIdx_sublist pool _).mem (hsub x hx2)

lemma setOnes_length (n : ℕ) (idxs : List ℕ) : (setOnes n idxs).length = n := by
  simp [setOnes]

lemma setOnes_getD (n : ℕ) (idxs : List ℕ) (i : ℕ) :
    (setOnes n idxs).getD i 0 = if i < n ∧ i ∈ idxs then 1 else 0 := by
  by_cases hi : i < n
  · rw [setOnes, List.getD_eq_getElem _ _ (by simpa using hi)]
    simp [hi]
  · rw [setOnes, List.getD_eq_default _ _ (by simpa using (not_lt.mp hi))]
    simp [hi]

lemma setOnes_count (n : ℕ) (idxs : List ℕ) (hnd : idxs.Nodup)
    (hlt : ∀ i ∈ idxs, i < n) : (setOnes n idxs).count 1 = idxs.length := by
  rw [setOnes, List.count_eq_countP, List.countP_map]
  have hcongr : List.countP ((fun x => x == 1) ∘ fun i => if i ∈ idxs then 1 else 0)
      (List.range n) = List.countP (fun i => decide (i ∈ idxs)) (List.range n) := by
    apply List.countP_congr
    intro a _
    by_cases ha : a ∈ idxs <;> simp [ha]
  rw [hcongr, List.countP_eq_length_filter]
  have hperm : List.Perm ((List.range n).filter (fun i => decide (i ∈ idxs))) idxs := by
    rw [List.perm_ext_iff_of_nodup ((List.nodup_range n).filter _) hnd]
    intro a
    rw [List.mem_filter, List.mem_range]
    constructor
    · intro h
      exact of_decide_eq_true h.2
    · intro h
      exact ⟨hlt a h, decide_eq_true h⟩
  exact hperm.length_eq

lemma set_samples_count_ok (p : Pedigree) (pick : ℕ → ℕ) (k : ℕ)
    (hk : k ≤ (probandList p.individual p.parents).length) :
    set_samples p pick (some k) none true =
      ({ p with
          is_sample := some (setOnes p.individual.length
            (chooseNoReplace pick 0 (probandList p.individual p.parents) k)),
          num_samples := some k }, none) := by
  obtain ⟨hlen, -, -⟩ := chooseNoReplace_spec pick k 0
    (probandList p.individual p.parents) hk (probandList_nodup _ _)
  rw [set_samples, if_neg (by simp), if_neg (by simp), if_neg (by simp)]
  dsimp only
  rw [if_neg (by omega), if_neg (by simp [hlen])]

lemma set_samples_count_err (p : Pedigree) (pick : ℕ → ℕ) (k : ℕ)
    (hk : (probandList p.individual p.parents).length < k) :
    set_samples p pick (some k) none true =
      ({ p with
          is_sample := some (List.replicate p.individual.length 0),
          num_samples := some k },
        some "Cannot specify more samples than there are probands in the pedigree") := by
  rw [set_samples, if_neg (by simp), if_neg (by simp), if_neg (by simp)]
  dsimp only
  rw [if_pos hk]

lemma set_samples_ids_err (p : Pedigree) (pick : ℕ → ℕ) (ids : List Int)
    (hmis : ((probandList p.individual p.parents).filter
      (fun i => ids.contains (p.individual.getD i 0))).length ≠ ids.length) :
    set_samples p pick none (some ids) true =
      ({ p with
          is_sample := some (List.replicate p.individual.length 0),
          num_samples := some ids.length },
        some "Sample size mismatch - duplicate sample IDs or sample ID not in pedigree") := by
  rw [set_samples, if_neg (by simp), if_neg (by simp), if_neg (by simp)]
  dsimp only
  rw [if_pos hmis]

/-- C5: `set_samples` raises when neither or both of `num_samples` and
`sample_IDs` are supplied, and when the requested count exceeds the number of
probands; otherwise it succeeds and sets exactly `k` entries of the
sample-flag vector to `1`, all of them at proband indices (indices absent
from the flattened parent matrix). -/
theorem set_samples_spec (p : Pedigree) (pick : ℕ → ℕ) (k : ℕ) :
    ((set_samples p pick none none true).2.isSome = true) ∧
    (∀ (k2 : ℕ) (ids : List Int),
      (set_samples p pick (some k2) (some ids) true).2.isSome = true) ∧
    ((probandList p.individual p.parents).length < k →
      (set_samples p pick (some k) none true).2.isSome = true) ∧
    (k ≤ (probandList p.individual p.parents).length →
      (set_samples p pick (some k) none true).2 = none ∧
      ∃ v, (set_samples p pick (some k) none true).1.is_sample = some v ∧
        v.count 1 = k ∧ v.length = p.individual.length ∧
        ∀ i, v.getD i 0 = 1 →
          i < p.individual.length ∧ (i : Int) ∉ p.parents.flatten) := by
  refine ⟨by simp [set_samples], ?_, ?_, ?_⟩
  · intro k2 ids
    simp [set_samples]
  · intro hk
    rw [set_samples_count_err p pick k hk]
    rfl
  · intro hk
    obtain ⟨hlen, hnd2, hsub⟩ := chooseNoReplace_spec pick k 0
      (probandList p.individual p.parents) hk (probandList_nodup _ _)
    rw [set_samples_count_ok p pick k hk]
    refine ⟨rfl, setOnes p.individual.length
      (chooseNoReplace pick 0 (probandList p.individual p.parents) k), rfl, ?_, ?_, ?_⟩
    · rw [setOnes_count _ _ hnd2 (fun i hi => probandList_lt _ _ i (hsub i hi))]
      exact hlen
    · exact setOnes_length _ _
    · intro i hone
      rw [setOnes_getD] at hone
      by_cases hc : i < p.individual.length ∧
          i ∈ chooseNoReplace pick 0 (probandList p.individual p.parents) k
      · exact ⟨hc.1, probandList_not_parent _ _ i (hsub i hc.2)⟩
      · rw [if_neg hc] at hone
        cases hone

theorem set_samples_spec_witness :
    ((set_samples ⟨[1, 2, 3], [[2, -1], [2, -1], [-1, -1]], [0, 0, 1], none, 2, none, none⟩
        (fun _ => 0) none none true).2.isSome = true) ∧
    ((set_samples ⟨[1, 2, 3], [[2, -1], [2, -1], [-1, -1]], [0, 0, 1], none, 2, none, none⟩
        (fun _ => 0) (some 3) none true).2.isSome = true) ∧
    ((set_samples ⟨[1, 2, 3], [[2, -1], [2, -1], [-1, -1]], [0, 0, 1], none, 2, none, none⟩
        (fun _ => 0) (some 1) none true).2 = none) := by
  refine ⟨(set_samples_spec ⟨[1, 2, 3], [[2, -1], [2, -1], [-1, -1]], [0, 0, 1],
      none, 2, none, none⟩ (fun _ => 0) 1).1, ?_, ?_⟩
  · exact (set_samples_spec ⟨[1, 2, 3], [[2, -1], [2, -1], [-1, -1]], [0, 0, 1],
      none, 2, none, none⟩ (fun _ => 0) 3).2.2.1 (by decide)
  · exact ((set_samples_spec ⟨[1, 2, 3], [[2, -1], [2, -1], [-1, -1]], [0, 0, 1],
      none, 2, none, none⟩ (fun _ => 0) 1).2.2.2 (by decide)).1

/-- C6 counterexample: a failing `set_samples` call mutates the object.  The
pedigree starts with `is_sample = [1, 0]` and `num_samples = 1`; requesting
`5` samples fails (only one proband), yet afterwards `is_sample` has been
overwritten with zeros and `num_samples` with the requested `5`. -/
theorem set_samples_failure_mutates :
    ((set_samples ⟨[1, 2], [[1, -1], [-1, -1]], [0, 1], none, 2, some [1, 0], some 1⟩
        (fun _ => 0) (some 5) none true).2.isSome = true) ∧
    ((set_samples ⟨[1, 2], [[1, -1], [-1, -1]], [0, 1], none, 2, some [1, 0], some 1⟩
        (fun _ => 0) (some 5) none true).1.is_sample = some [0, 0]) ∧
    ((set_samples ⟨[1, 2], [[1, -1], [-1, -1]], [0, 1], none, 2, some [1, 0], some 1⟩
        (fun _ => 0) (some 5) none true).1.num_samples = some 5) ∧
    (Pedigree.is_sample ⟨[1, 2], [[1, -1], [-1, -1]], [0, 1], none, 2, some [1, 0], some 1⟩
      = some [1, 0]) := by
  decide

/-- C6 (amended): only the argument-validation errors (`probands_only` not
`True`, neither argument supplied, both supplied) are raised before any
mutation; when the requested count exceeds the probands, or the sample-ID
list does not resolve to exactly its own length of probands, the error is
raised after `is_sample` has been overwritten with zeros and `num_samples`
with the requested count. -/
theorem set_samples_mutation_boundary (p : Pedigree) (pick : ℕ → ℕ) (k : ℕ)
    (ids : List Int) :
    ((set_samples p pick none none true).1 = p) ∧
    ((set_samples p pick (some k) (some ids) true).1 = p) ∧
    ((set_samples p pick none none false).1 = p) ∧
    ((probandList p.individual p.parents).length < k →
      (set_samples p pick (some k) none true).2.isSome = true ∧
      (set_samples p pick (some k) none true).1.is_sample =
        some (List.replicate p.individual.length 0) ∧
      (set_samples p pick (some k) none true).1.num_samples = some k) ∧
    (((probandList p.individual p.parents).filter
        (fun i => ids.contains (p.individual.getD i 0))).length ≠ ids.length →
      (set_samples p pick none (some ids) true).2.isSome = true ∧
      (set_samples p pick none (some ids) true).1.is_sample =
        some (List.replicate p.individual.length 0) ∧
      (set_samples p pick none (some ids) true).1.num_samples = some ids.length) := by
  refine ⟨by simp [set_samples], by simp [set_samples], by simp [set_samples], ?_, ?_⟩
  · intro hk
    rw [set_samples_count_err p pick k hk]
    exact ⟨rfl, rfl, rfl⟩
  · intro hmis
    rw [set_samples_ids_err p pick ids hmis]
    exact ⟨rfl, rfl, rfl⟩

theorem set_samples_mutation_boundary_witness :
    ((set_samples ⟨[1, 2], [[1, -1], [-1, -1]], [0, 1], none, 2, some [1, 0], some 1⟩
        (fun _ => 0) none none true).1 =
      ⟨[1, 2], [[1, -1], [-1, -1]], [0, 1], none, 2, some [1, 0], some 1⟩) ∧
    ((set_samples ⟨[1, 2], [[1, -1], [-1, -1]], [0, 1], none, 2, some [1, 0], some 1⟩
        (fun _ => 0) (some 5) none true).2.isSome = true) ∧
    ((set_samples ⟨[1, 2], [[1, -1], [-1, -1]], [0, 1], none, 2, some [1, 0], some 1⟩
        (fun _ => 0) (some 5) none true).1.is_sample = some (List.replicate 2 0)) ∧
    ((set_samples ⟨[1, 2], [[1, -1], [-1, -1]], [0, 1], none, 2, some [1, 0], some 1⟩
        (fun _ => 0) none (some [7]) true).2.isSome = true) ∧
    ((set_samples ⟨[1, 2], [[1, -1], [-1, -1]], [0, 1], none, 2, some [1, 0], some 1⟩
        (fun _ => 0) none (some [7]) true).1.num_samples = some 1) := by
  refine ⟨(set_samples_mutation_boundary ⟨[1, 2], [[1, -1], [-1, -1]], [0, 1], none, 2,
      some [1, 0], some 1⟩ (fun _ => 0) 5 [7]).1, ?_, ?_, ?_, ?_⟩
  · exact ((set_samples_mutation_boundary ⟨[1, 2], [[1, -1], [-1, -1]], [0, 1], none, 2,
      some [1, 0], some 1⟩ (fun _ => 0) 5 [7]).2.2.2.1 (by decide)).1
  · exact ((set_samples_mutation_boundary ⟨[1, 2], [[1, -1], [-1, -1]], [0, 1], none, 2,
      some [1, 0], some 1⟩ (fun _ => 0) 5 [7]).2.2.2.1 (by decide)).2.1
  · exact ((set_samples_mutation_boundary ⟨[1, 2], [[1, -1], [-1, -1]], [0, 1], none, 2,
      some [1, 0], some 1⟩ (fun _ => 0) 5 [7]).2.2.2.2 (by decide)).1
  · exact ((set_samples_mutation_boundary ⟨[1, 2], [[1, -1], [-1, -1]], [0, 1], none, 2,
      some [1, 0], some 1⟩ (fun _ => 0) 5 [7]).2.2.2.2 (by decide)).2.2

/-- `Pedigree.check_times`: walks every individual in order, and for the
first parent edge with `parent_ix >= 0` and `time[i] >= time[parent_ix]`
raises, reporting the pair of identifiers `(individual[i],
individual[parent_ix])`; returns `none` (no exception) otherwise. -/
def check_times (individual : List Int) (parents : List (List Int)) (time : List Rat) :
    Option (Int × Int) :=
  (List.range individual.length).findSome? (fun i =>
    (parents.getD i []).findSome? (fun q =>
      if 0 ≤ q ∧ time.getD q.toNat 0 ≤ time.getD i 0 then
        some (individual.getD i 0, individual.getD q.toNat 0)
      else none))

/-- C7: `check_times` raises iff some individual `i` has a parent entry
`q ≥ 0` with `time[i] ≥ time[q]`; the reported pair consists of the
identifiers (not the indices) of the offending child and parent; with no
violation it returns normally (the function reads but never writes its
arguments). -/
theorem check_times_spec (individual : List Int) (parents : List (List Int))
    (time : List Rat)
    (hlp : parents.length = individual.length)
    (hlt : time.length = individual.length)
    (hrange : ParentsInRange parents individual.length) :
    (check_times individual parents time = none ↔
      ¬ ∃ i, i < individual.length ∧ ∃ q ∈ parents.getD i [], 0 ≤ q ∧
        time.getD q.toNat 0 ≤ time.getD i 0) ∧
    (∀ a b, check_times individual parents time = some (a, b) →
      ∃ i, i < individual.length ∧ ∃ q ∈ parents.getD i [], 0 ≤ q ∧
        time.getD q.toNat 0 ≤ time.getD i 0 ∧
        a = individual.getD i 0 ∧ b = individual.getD q.toNat 0) := by
  constructor
  · rw [check_times, List.findSome?_eq_none_iff]
    constructor
    · intro hall
      rintro ⟨i, hi, q, hq, hq0, hviol⟩
      have h1 := hall i (List.mem_range.mpr hi)
      rw [List.findSome?_eq_none_iff] at h1
      have h2 := h1 q hq
      rw [if_pos ⟨hq0, hviol⟩] at h2
      cases h2
    · intro hnex i hi
      rw [List.findSome?_eq_none_iff]
      intro q hq
      by_cases hc : 0 ≤ q ∧ time.getD q.toNat 0 ≤ time.getD i 0
      · exact absurd ⟨i, List.mem_range.mp hi, q, hq, hc.1, hc.2⟩ hnex
      · rw [if_neg hc]
  · intro a b hsome
    rw [check_times] at hsome
    obtain ⟨l1, i, l2, hsplit, hfi, -⟩ := List.findSome?_eq_some_iff.mp hsome
    have hiN : i ∈ List.range individual.length := by
      rw [hsplit]
      simp
    obtain ⟨m1, q, m2, hsplit2, hfq, -⟩ := List.findSome?_eq_some_iff.mp hfi
    have hqmem : q ∈ parents.getD i [] := by
      rw [hsplit2]
      simp
    by_cases hc : 0 ≤ q ∧ time.getD q.toNat 0 ≤ time.getD i 0
    · rw [if_pos hc] at hfq
      injection hfq with hpair
      injection hpair with ha hb
      exact ⟨i, List.mem_range.mp hiN, q, hqmem, hc.1, hc.2, ha.symm, hb.symm⟩
    · rw [if_neg hc] at hfq
      cases hfq

theorem check_times_spec_witness :
    ((check_times [1, 2] [[1, -1], [-1, -1]] [0, 1] = none ↔
      ¬ ∃ i, i < 2 ∧ ∃ q ∈ ([[1, -1], [-1, -1]] : List (List Int)).getD i [], 0 ≤ q ∧
        (([0, 1] : List Rat)).getD q.toNat 0 ≤ (([0, 1] : List Rat)).getD i 0) ∧
    (∀ a b, check_times [1, 2] [[1, -1], [-1, -1]] [0, 1] = some (a, b) →
      ∃ i, i < 2 ∧ ∃ q ∈ ([[1, -1], [-1, -1]] : List (List Int)).getD i [], 0 ≤ q ∧
        (([0, 1] : List Rat)).getD q.toNat 0 ≤ (([0, 1] : List Rat)).getD i 0 ∧
        a = ([1, 2] : List Int).getD i 0 ∧ b = ([1, 2] : List Int).getD q.toNat 0)) :=
  check_times_spec [1, 2] [[1, -1], [-1, -1]] [0, 1] (by decide) (by decide) (by decide)

/-! ## Array serialisation (`build_array`, `save_txt`) -/

/-- `Pedigree.parent_index_to_ID`: maps each parent index `>= 0` to the
identifier stored at that index and every other (sentinel) entry to `0`. -/
def parent_index_to_ID (individual : List Int) (parents : List (List Int)) :
    List (List Int) :=
  parents.map (fun row => row.map (fun q =>
    if 0 ≤ q then individual.getD q.toNat 0 else 0))

/-- `Pedigree.build_array` under the default column format
`{individual: 0, parents: [1, 2], time: 3}`: an `N × 4` matrix with the
identifier, the two raw parent indices, and the time per row.  (The
non-contiguous-columns check of the source is vacuous for this constant
layout.) -/
def build_array (p : Pedigree) : List (List Rat) :=
  (List.range p.individual.length).map (fun i =>
    [((p.individual.getD i 0 : Int) : Rat),
     (((p.parents.getD i []).getD 0 0 : Int) : Rat),
     (((p.parents.getD i []).getD 1 0 : Int) : Rat),
     p.time.getD i 0])

/-- `Pedigree.save_txt`, up to the text rendering: the numeric rows written to
the file, or `none` when the method raises.  The source executes
`pedarray = pedarray[cols_to_save]` with `cols_to_save = [0, 1, 2, 3]`, which
is numpy *row* (axis 0) fancy indexing: it raises `IndexError` unless the
array has at least 4 rows.  The subsequent broadcast assignment
`pedarray[:, [1, 2]] = parent_IDs` assigns an `(N, 2)` array into the selected
`(4, 2)` slice and raises `ValueError` unless `N = 4` (or `N = 1`, already
excluded by the row selection). -/
def save_txt (p : Pedigree) : Option (List (List Rat)) :=
  let pedarray := build_array p
  if 4 ≤ pedarray.length then
    let sel := [pedarray.getD 0 [], pedarray.getD 1 [], pedarray.getD 2 [], pedarray.getD 3 []]
    let parent_IDs := parent_index_to_ID p.individual p.parents
    if parent_IDs.length = 4 ∨ parent_IDs.length = 1 then
      some ((List.range 4).map (fun r =>
        let row := sel.getD r []
        let ids := if parent_IDs.length = 1 then parent_IDs.getD 0 []
                   else parent_IDs.getD r []
        [row.getD 0 0, ((ids.getD 0 0 : Int) : Rat), ((ids.getD 1 0 : Int) : Rat),
         row.getD 3 0]))
    else none
  else none

/-- C1 (failing input): a perfectly valid two-individual pedigree is accepted
by the constructor, but `save_txt` raises (`pedarray[[0, 1, 2, 3]]` row
indexing on a 2-row array is an `IndexError`), so the text round-trip of the
claim is impossible for `N = 2`. -/
theorem save_txt_raises_on_two_individuals :
    ∃ p, pedInit [1, 2] [[-1, -1], [-1, -1]] [0, 0] none none 2 = .ok p ∧
      save_txt p = none := by
  refine ⟨_, rfl, ?_⟩
  decide

/-! ## PLINK .fam parsing (`parse_fam`) -/

/-- One row of a PLINK `.fam` file: FID, IID, PAT, MAT, SEX, with the sex
field already through `int()` (a non-integer sex string raises there, outside
this model). -/
structure FamRow where
  fid : String
  iid : String
  pat : String
  mat : String
  sex : Int
deriving DecidableEq

instance : Inhabited FamRow := ⟨⟨"", "", "", "", 0⟩⟩

/-- One row added to the tskit individual table by `parse_fam`: the two
resolved parent references and the metadata fields. -/
structure ParsedRow where
  father : Int
  mother : Int
  plink_fid : String
  plink_iid : String
  sex : Int
deriving DecidableEq

instance : Inhabited ParsedRow := ⟨⟨0, 0, "", "", 0⟩⟩

/-- `plink_id = f"{plink_fid} {plink_iid}"`. -/
def plinkId (r : FamRow) : String := r.fid ++ " " ++ r.iid

/-- `id_map[key]`: `"0"` maps to `-1` (`id_map["0"] = -1` is assigned after
the first loop, so it wins over any colliding key — which cannot occur, since
every row key contains a space); any other key maps to the index of the row
carrying it, or is a fatal `KeyError` (`none`). -/
def lookupId (rows : List FamRow) (key : String) : Option Int :=
  if key = "0" then some (-1)
  else ((rows.map plinkId).findIdx? (fun s => s == key)).map (fun k => (k : Int))

/-- `pat_id = f"{plink_fid} {pat}" if pat != "0" else pat`. -/
def patKey (r : FamRow) : String := if r.pat = "0" then "0" else r.fid ++ " " ++ r.pat

/-- `mat_id = f"{plink_fid} {mat}" if mat != "0" else mat`. -/
def matKey (r : FamRow) : String := if r.mat = "0" then "0" else r.fid ++ " " ++ r.mat

/-- The second loop of `parse_fam`: per row, validate `sex in range(3)`,
resolve both parent keys through `id_map` (a missing key is a fatal
`KeyError`), and emit the row. -/
def processRows (allRows : List FamRow) : List FamRow → Except String (List ParsedRow)
  | [] => .ok []
  | r :: rest =>
    if ¬ (0 ≤ r.sex ∧ r.sex < 3) then
      .error "Sex must be one of the following: 0 (unknown), 1 (male), 2 (female)"
    else
      match lookupId allRows (patKey r), lookupId allRows (matKey r) with
      | some f, some m =>
        match processRows allRows rest with
        | .ok out => .ok (⟨f, m, r.fid, r.iid, r.sex⟩ :: out)
        | .error e => .error e
      | _, _ => .error "KeyError"

/-- `parse_fam`: the first pass raises on any duplicate family+individual
key; the second pass processes every row in order. -/
def parse_fam (rows : List FamRow) : Except String (List ParsedRow) :=
  if (rows.map plinkId).Nodup then processRows rows rows
  else .error "Duplicate PLINK ID"

lemma append_space_ne_zero (a b : String) : a ++ " " ++ b ≠ "0" := by
  intro h
  have hd := congrArg String.data h
  rw [String.data_append, String.data_append] at hd
  have hsp : (" " : String).data = [' '] := rfl
  have hz : ("0" : String).data = ['0'] := rfl
  rw [hsp, hz] at hd
  have hlen := congrArg List.length hd
  simp at hlen
  have ha : a.data = [] := List.eq_nil_of_length_eq_zero (show a.length = 0 by omega)
  have hb : b.data = [] := List.eq_nil_of_length_eq_zero (show b.length = 0 by omega)
  rw [ha, hb] at hd
  simp at hd

lemma processRows_ok (allRows : List FamRow) :
    ∀ (l : List FamRow) (out : List ParsedRow), processRows allRows l = .ok out →
      out.length = l.length ∧
      ∀ j, j < l.length →
        (0 ≤ (l.getD j default).sex ∧ (l.getD j default).sex < 3) ∧
        ∃ f m, lookupId allRows (patKey (l.getD j default)) = some f ∧
          lookupId allRows (matKey (l.getD j default)) = some m ∧
          out.getD j default = ⟨f, m, (l.getD j default).fid, (l.getD j default).iid,
            (l.getD j default).sex⟩ := by
  intro l
  induction l with
  | nil =>
    intro out hout
    rw [processRows] at hout
    injection hout with hout2
    subst hout2
    exact ⟨rfl, fun j hj => absurd hj (by simp)⟩
  | cons r rest ih =>
    intro out hout
    rw [processRows] at hout
    by_cases hsex : 0 ≤ r.sex ∧ r.sex < 3
    · rw [if_neg (not_not_intro hsex)] at hout
      cases hpat : lookupId allRows (patKey r) with
      | none => rw [hpat] at hout; cases hout
      | some f =>
        cases hmat : lookupId allRows (matKey r) with
        | none => rw [hpat, hmat] at hout; cases hout
        | some m =>
          rw [hpat, hmat] at hout
          cases hrec : processRows allRows rest with
          | error e => rw [hrec] at hout; cases hout
          | ok out2 =>
            rw [hrec] at hout
            injection hout with hout2
            subst hout2
            obtain ⟨hlen2, hall2⟩ := ih out2 hrec
            refine ⟨by simp [hlen2], ?_⟩
            intro j hj
            cases j with
            | zero =>
              refine ⟨hsex, f, m, hpat, hmat, rfl⟩
            | succ j =>
              rw [List.getD_cons_succ, List.getD_cons_succ]
              exact hall2 j (by simpa using hj)
    · rw [if_pos hsex] at hout
      cases hout

/-- C8: `parse_fam` raises on any two rows sharing the family-id/individual-id
key and on any row whose sex code is outside `{0, 1, 2}`; a parent field equal
to `"0"` is translated to `-1` rather than resolved; and a non-`"0"` parent
reference whose family-id/parent-id key matches no row is a fatal lookup
error. -/
theorem parse_fam_spec (rows : List FamRow) :
    (∀ i j, i < rows.length → j < rows.length → i ≠ j →
      (rows.getD i default).fid = (rows.getD j default).fid →
      (rows.getD i default).iid = (rows.getD j default).iid →
      ∃ e, parse_fam rows = .error e) ∧
    (∀ r ∈ rows, ¬ (0 ≤ r.sex ∧ r.sex < 3) → ∃ e, parse_fam rows = .error e) ∧
    (∀ out, parse_fam rows = .ok out → ∀ j, j < rows.length →
      (rows.getD j default).pat = "0" → (out.getD j default).father = -1) ∧
    (∀ r ∈ rows, r.pat ≠ "0" →
      (∀ r2 ∈ rows, plinkId r2 ≠ r.fid ++ " " ++ r.pat) →
      ∃ e, parse_fam rows = .error e) := by
  refine ⟨?_, ?_, ?_, ?_⟩
  · intro i j hi hj hij hfid hiid
    have hnot : ¬ (rows.map plinkId).Nodup := by
      intro hnd
      rw [List.nodup_iff_injective_get] at hnd
      have hil : i < (rows.map plinkId).length := by simpa using hi
      have hjl : j < (rows.map plinkId).length := by simpa using hj
      have hgeti : (rows.map plinkId).get ⟨i, hil⟩ = plinkId (rows.getD i default) := by
        rw [List.get_eq_getElem, List.getElem_map]
        rw [List.getD_eq_getElem _ _ hi]
      have hgetj : (rows.map plinkId).get ⟨j, hjl⟩ = plinkId (rows.getD j default) := by
        rw [List.get_eq_getElem, List.getElem_map]
        rw [List.getD_eq_getElem _ _ hj]
      have heq : (rows.map plinkId).get ⟨i, hil⟩ = (rows.map plinkId).get ⟨j, hjl⟩ := by
        rw [hgeti, hgetj, plinkId, plinkId, hfid, hiid]
      have := hnd heq
      rw [Fin.mk.injEq] at this
      exact hij this
    rw [parse_fam, if_neg hnot]
    exact ⟨_, rfl⟩
  · intro r hr hbad
    by_cases hnd : (rows.map plinkId).Nodup
    · rw [parse_fam, if_pos hnd]
      cases hproc : processRows rows rows with
      | error e => exact ⟨e, rfl⟩
      | ok out =>
        obtain ⟨n, hn, hget⟩ := List.mem_iff_getElem.mp hr
        obtain ⟨-, hall⟩ := processRows_ok rows rows out hproc
        obtain ⟨hsex, -⟩ := hall n hn
        rw [List.getD_eq_getElem _ _ hn, hget] at hsex
        exact absurd hsex hbad
    · rw [parse_fam, if_neg hnd]
      exact ⟨_, rfl⟩
  · intro out hok j hj hpat0
    rw [parse_fam] at hok
    by_cases hnd : (rows.map plinkId).Nodup
    · rw [if_pos hnd] at hok
      obtain ⟨-, hall⟩ := processRows_ok rows rows out hok
      obtain ⟨-, f, m, hf, -, hrow⟩ := hall j hj
      rw [patKey, if_pos hpat0, lookupId, if_pos rfl] at hf
      injection hf with hf2
      rw [hrow, ← hf2]
    · rw [if_neg hnd] at hok
      cases hok
  · intro r hr hpne hnokey
    by_cases hnd : (rows.map plinkId).Nodup
    · rw [parse_fam, if_pos hnd]
      cases hproc : processRows rows rows with
      | error e => exact ⟨e, rfl⟩
      | ok out =>
        obtain ⟨n, hn, hget⟩ := List.mem_iff_getElem.mp hr
        obtain ⟨-, hall⟩ := processRows_ok rows rows out hproc
        obtain ⟨-, f, m, hf, -, -⟩ := hall n hn
        rw [List.getD_eq_getElem _ _ hn, hget] at hf
        rw [patKey, if_neg hpne, lookupId,
          if_neg (append_space_ne_zero r.fid r.pat)] at hf
        have hnone : (rows.map plinkId).findIdx? (fun s => s == r.fid ++ " " ++ r.pat)
            = none := by
          rw [List.findIdx?_eq_none_iff]
          intro x hx
          obtain ⟨r2, hr2, hxeq⟩ := List.mem_map.mp hx
          subst hxeq
          exact beq_false_of_ne (hnokey r2 hr2)
        rw [hnone] at hf
        cases hf
    · rw [parse_fam, if_neg hnd]
      exact ⟨_, rfl⟩

theorem parse_fam_spec_witness :
    (∃ e, parse_fam [⟨"F1", "1", "0", "0", 0⟩, ⟨"F1", "1", "0", "0", 1⟩] = .error e) ∧
    (∃ e, parse_fam [⟨"F1", "1", "0", "0", 5⟩] = .error e) ∧
    ((([⟨-1, -1, "F1", "1", 1⟩] : List ParsedRow).getD 0 default).father = -1) ∧
    (∃ e, parse_fam [⟨"F1", "1", "2", "0", 1⟩] = .error e) := by
  refine ⟨?_, ?_, ?_, ?_⟩
  · exact (parse_fam_spec [⟨"F1", "1", "0", "0", 0⟩, ⟨"F1", "1", "0", "0", 1⟩]).1
      0 1 (by decide) (by decide) (by decide) (by decide) (by decide)
  · exact (parse_fam_spec [⟨"F1", "1", "0", "0", 5⟩]).2.1
      ⟨"F1", "1", "0", "0", 5⟩ (by decide) (by decide)
  · exact (parse_fam_spec [⟨"F1", "1", "0", "0", 1⟩]).2.2.1
      [⟨-1, -1, "F1", "1", 1⟩] (by rfl) 0 (by decide) (by decide)
  · exact (parse_fam_spec [⟨"F1", "1", "2", "0", 1⟩]).2.2.2
      ⟨"F1", "1", "2", "0", 1⟩ (by decide) (by decide) (by decide)
